import Mathlib

/-!
Verification of the SSE streaming relay in `src-tauri/src/api_proxy.rs`
(`api_proxy`, `simple_api_proxy`, `api_stream_proxy`) and the permission
stubs in `src-tauri/src/permissions.rs`.

Text is modelled as `List Char`; chunk boundaries are assumed to fall on
character boundaries (the Rust code decodes each chunk with
`String::from_utf8` and aborts the stream on decode failure, so byte-level
splits inside a UTF-8 sequence are a separate failure mode outside this
model).  All definitions are structural recursions, so concrete runs
evaluate by `decide`.
-/

namespace ApiProxy

/-- Unicode `White_Space` code points, as used by Rust's `char::is_whitespace`
(`str::trim` trims exactly these). -/
def rustIsWhitespace (c : Char) : Bool :=
  [0x09, 0x0A, 0x0B, 0x0C, 0x0D, 0x20, 0x85, 0xA0, 0x1680,
   0x2000, 0x2001, 0x2002, 0x2003, 0x2004, 0x2005, 0x2006, 0x2007,
   0x2008, 0x2009, 0x200A, 0x2028, 0x2029, 0x202F, 0x205F, 0x3000].contains c.toNat

/-- Rust `str::trim_start`. -/
def trimStart (s : List Char) : List Char := s.dropWhile rustIsWhitespace

/-- Rust `str::trim_end`. -/
def trimEnd (s : List Char) : List Char := (s.reverse.dropWhile rustIsWhitespace).reverse

/-- Rust `str::trim`: whitespace removed from both ends. -/
def trim (s : List Char) : List Char := trimEnd (trimStart s)

/-- Rust `str::starts_with` on string patterns (`a.starts_with(b)` =
`startsWithList b a`: the first argument is the pattern). -/
def startsWithList : List Char → List Char → Bool
  | [], _ => true
  | _ :: _, [] => false
  | a :: as, b :: bs => a == b && startsWithList as bs

/-- The literal `"data:"`. -/
def strData : List Char := "data:".toList

/-- Split a character list at every `'\n'`; always returns one more segment
than there are newlines (so never `[]`).  Helper for `rustLines`. -/
def consHead (c : Char) : List (List Char) → List (List Char)
  | [] => [[c]]
  | s :: ss => (c :: s) :: ss

def splitNl : List Char → List (List Char)
  | [] => [[]]
  | c :: cs => if c = '\n' then [] :: splitNl cs else consHead c (splitNl cs)

/-- Remove one trailing `'\r'` (the second half of Rust's `str::lines`
treatment of a `"\r\n"` terminator). -/
def stripCr (l : List Char) : List Char :=
  if l.getLast? = some '\r' then l.dropLast else l

/-- Rust `str::lines`: segments split at `'\n'`; every segment that was
terminated by a `'\n'` has one trailing `'\r'` stripped; a final unterminated
segment is kept verbatim, and no empty final segment is produced when the
text ends with a terminator. -/
def rustLines (s : List Char) : List (List Char) :=
  let segs := splitNl s
  segs.dropLast.map stripCr ++
    (match segs.getLast? with
     | some [] => []
     | some t => [t]
     | none => [])

/-- The text after the last `'\n'` of `s` (the whole of `s` when it has no
newline): exactly what the streaming loop keeps as its carry-over buffer. -/
def rawTail : List Char → List Char
  | [] => []
  | c :: cs => if '\n' ∈ cs then rawTail cs else if c = '\n' then cs else c :: cs

/-- The prefix of `s` up to and including its last `'\n'` (empty when `s` has
no newline), so that `donePart s ++ rawTail s = s`. -/
def donePart : List Char → List Char
  | [] => []
  | c :: cs => if '\n' ∈ cs then c :: donePart cs else if c = '\n' then ['\n'] else []

/-- Rust `String::ends_with('\n')`. -/
def endsWithNl (s : List Char) : Bool := s.getLast? == some '\n'

theorem splitNl_cons (c : Char) (cs : List Char) :
    splitNl (c :: cs) =
      if c = '\n' then [] :: splitNl cs else consHead c (splitNl cs) := rfl

theorem splitNl_ne_nil (s : List Char) : splitNl s ≠ [] := by
  induction s with
  | nil => simp [splitNl]
  | cons c cs ih =>
    rw [splitNl_cons]
    by_cases hc : c = '\n'
    · simp [hc]
    · rw [if_neg hc]
      cases splitNl cs with
      | nil => simp [consHead]
      | cons s ss => simp [consHead]

theorem consHead_append (c : Char) (l1 l2 : List (List Char)) (h : l1 ≠ []) :
    consHead c (l1 ++ l2) = consHead c l1 ++ l2 := by
  cases l1 with
  | nil => exact absurd rfl h
  | cons s ss => simp [consHead]

theorem splitNl_append_nl (a y : List Char) :
    splitNl (a ++ '\n' :: y) = splitNl a ++ splitNl y := by
  induction a with
  | nil => simp [splitNl, splitNl_cons]
  | cons c cs ih =>
    rw [List.cons_append, splitNl_cons, splitNl_cons, ih]
    by_cases hc : c = '\n'
    · rw [if_pos hc, if_pos hc, List.cons_append]
    · rw [if_neg hc, if_neg hc, consHead_append c _ _ (splitNl_ne_nil cs)]

theorem splitNl_no_nl (s : List Char) (h : '\n' ∉ s) : splitNl s = [s] := by
  induction s with
  | nil => rfl
  | cons c cs ih =>
    have hc : c ≠ '\n' := fun hh => h (hh ▸ List.mem_cons_self c cs)
    have hcs : '\n' ∉ cs := fun hh => h (List.mem_cons_of_mem c hh)
    rw [splitNl_cons, if_neg hc, ih hcs]
    rfl

theorem rustLines_nil : rustLines [] = [] := rfl

theorem rustLines_no_nl (s : List Char) (h1 : '\n' ∉ s) (h2 : s ≠ []) :
    rustLines s = [s] := by
  simp only [rustLines, splitNl_no_nl s h1]
  cases s with
  | nil => exact absurd rfl h2
  | cons c cs => simp

theorem splitNl_concat_nl (a : List Char) : splitNl (a ++ ['\n']) = splitNl a ++ [[]] := by
  have := splitNl_append_nl a []
  simpa [splitNl] using this

theorem rustLines_concat_nl (a : List Char) :
    rustLines (a ++ ['\n']) = (splitNl a).map stripCr := by
  simp [rustLines, splitNl_concat_nl, List.dropLast_concat]

theorem rustLines_of_concat_nl (a y : List Char) :
    rustLines ((a ++ ['\n']) ++ y) = rustLines (a ++ ['\n']) ++ rustLines y := by
  have h1 : splitNl ((a ++ ['\n']) ++ y) = splitNl a ++ splitNl y := by
    rw [List.append_assoc]; exact splitNl_append_nl a y
  rw [rustLines_concat_nl]
  simp only [rustLines, h1]
  rw [List.dropLast_append_of_ne_nil _ (splitNl_ne_nil y),
    List.getLast?_append_of_ne_nil _ (splitNl_ne_nil y), List.map_append,
    List.append_assoc]

theorem endsWithNl_exists (x : List Char) (h : endsWithNl x = true) :
    ∃ a, x = a ++ ['\n'] := by
  have hx : x.getLast? = some '\n' := by
    simpa [endsWithNl] using h
  exact ⟨x.dropLast, (List.dropLast_append_getLast? '\n' hx).symm⟩

theorem rustLines_append_of_ends (x y : List Char)
    (h : x = [] ∨ endsWithNl x = true) :
    rustLines (x ++ y) = rustLines x ++ rustLines y := by
  rcases h with h | h
  · simp [h, rustLines_nil]
  · obtain ⟨a, rfl⟩ := endsWithNl_exists x h
    exact rustLines_of_concat_nl a y

theorem rawTail_cons (c : Char) (cs : List Char) :
    rawTail (c :: cs) =
      if '\n' ∈ cs then rawTail cs else if c = '\n' then cs else c :: cs := rfl

theorem donePart_cons (c : Char) (cs : List Char) :
    donePart (c :: cs) =
      if '\n' ∈ cs then c :: donePart cs else if c = '\n' then ['\n'] else [] := rfl

theorem donePart_append_rawTail (s : List Char) : donePart s ++ rawTail s = s := by
  induction s with
  | nil => rfl
  | cons c cs ih =>
    rw [rawTail_cons, donePart_cons]
    by_cases h : '\n' ∈ cs
    · rw [if_pos h, if_pos h, List.cons_append, ih]
    · rw [if_neg h, if_neg h]
      by_cases hc : c = '\n'
      · rw [if_pos hc, if_pos hc, hc]
        rfl
      · rw [if_neg hc, if_neg hc, List.nil_append]

theorem rawTail_no_nl (s : List Char) : '\n' ∉ rawTail s := by
  induction s with
  | nil => simp [rawTail]
  | cons c cs ih =>
    rw [rawTail_cons]
    by_cases h : '\n' ∈ cs
    · rw [if_pos h]; exact ih
    · rw [if_neg h]
      by_cases hc : c = '\n'
      · rw [if_pos hc]; exact h
      · rw [if_neg hc]
        intro hm
        rcases List.mem_cons.mp hm with hm | hm
        · exact hc hm.symm
        · exact h hm

theorem rawTail_eq_self (s : List Char) (h : '\n' ∉ s) : rawTail s = s := by
  cases s with
  | nil => rfl
  | cons c cs =>
    have hc : c ≠ '\n' := fun hh => h (hh ▸ List.mem_cons_self c cs)
    have hcs : '\n' ∉ cs := fun hh => h (List.mem_cons_of_mem c hh)
    rw [rawTail_cons, if_neg hcs, if_neg hc]

theorem donePart_eq_nil (s : List Char) (h : '\n' ∉ s) : donePart s = [] := by
  cases s with
  | nil => rfl
  | cons c cs =>
    have hc : c ≠ '\n' := fun hh => h (hh ▸ List.mem_cons_self c cs)
    have hcs : '\n' ∉ cs := fun hh => h (List.mem_cons_of_mem c hh)
    rw [donePart_cons, if_neg hcs, if_neg hc]

theorem endsWithNl_cons (c : Char) (cs : List Char) (h : cs ≠ []) :
    endsWithNl (c :: cs) = endsWithNl cs := by
  cases cs with
  | nil => exact absurd rfl h
  | cons d ds => simp [endsWithNl, List.getLast?_cons_cons]

theorem endsWithNl_donePart (s : List Char) :
    donePart s = [] ∨ endsWithNl (donePart s) = true := by
  induction s with
  | nil => exact .inl rfl
  | cons c cs ih =>
    by_cases h : '\n' ∈ cs
    · have hne : donePart cs ≠ [] := by
        intro hd
        have := donePart_append_rawTail cs
        rw [hd, List.nil_append] at this
        exact rawTail_no_nl cs (by rw [this]; exact h)
      rcases ih with h' | h'
      · exact absurd h' hne
      · right
        rw [donePart_cons, if_pos h, endsWithNl_cons c _ hne]
        exact h'
    · by_cases hc : c = '\n'
      · right
        rw [donePart_cons, if_neg h, if_pos hc]
        rfl
      · left
        rw [donePart_cons, if_neg h, if_neg hc]

theorem rawTail_append (x z : List Char) :
    rawTail (x ++ z) = if '\n' ∈ z then rawTail z else rawTail x ++ z := by
  induction x with
  | nil =>
    by_cases h : '\n' ∈ z
    · rw [List.nil_append, if_pos h]
    · rw [List.nil_append, if_neg h, rawTail_eq_self z h]
      rfl
  | cons c cs ih =>
    rw [List.cons_append, rawTail_cons, rawTail_cons]
    by_cases h : '\n' ∈ z
    · have hm : '\n' ∈ cs ++ z := List.mem_append_right cs h
      rw [if_pos hm, ih, if_pos h, if_pos h]
    · by_cases h2 : '\n' ∈ cs
      · have hm : '\n' ∈ cs ++ z := List.mem_append_left z h2
        rw [if_pos hm, ih, if_neg h, if_neg h, if_pos h2]
      · have hm : '\n' ∉ cs ++ z := by
          intro hh
          rcases List.mem_append.mp hh with hh | hh
          · exact h2 hh
          · exact h hh
        rw [if_neg hm, if_neg h, if_neg h2]
        by_cases hc : c = '\n'
        · rw [if_pos hc, if_pos hc]
        · rw [if_neg hc, if_neg hc, List.cons_append]

theorem donePart_append (x z : List Char) :
    donePart (x ++ z) = if '\n' ∈ z then x ++ donePart z else donePart x := by
  induction x with
  | nil =>
    by_cases h : '\n' ∈ z
    · rw [List.nil_append, if_pos h, List.nil_append]
    · rw [List.nil_append, if_neg h, donePart_eq_nil z h]
      rfl
  | cons c cs ih =>
    rw [List.cons_append, donePart_cons, donePart_cons]
    by_cases h : '\n' ∈ z
    · have hm : '\n' ∈ cs ++ z := List.mem_append_right cs h
      rw [if_pos hm, ih, if_pos h, if_pos h, List.cons_append]
    · by_cases h2 : '\n' ∈ cs
      · have hm : '\n' ∈ cs ++ z := List.mem_append_left z h2
        rw [if_pos hm, ih, if_neg h, if_neg h, if_pos h2]
      · have hm : '\n' ∉ cs ++ z := by
          intro hh
          rcases List.mem_append.mp hh with hh | hh
          · exact h2 hh
          · exact h hh
        rw [if_neg hm, if_neg h, if_neg h2]

theorem donePart_of_ends (x : List Char) (h : x = [] ∨ endsWithNl x = true) :
    donePart x = x := by
  rcases h with h | h
  · simp [h, donePart]
  · obtain ⟨a, rfl⟩ := endsWithNl_exists x h
    rw [donePart_append]
    simp [donePart]

theorem rustLines_split (s : List Char) :
    rustLines s =
      rustLines (donePart s) ++ (if rawTail s = [] then [] else [rawTail s]) := by
  by_cases h : rawTail s = []
  · rw [if_pos h]
    conv_lhs => rw [← donePart_append_rawTail s]
    simp [h]
  · rw [if_neg h]
    conv_lhs => rw [← donePart_append_rawTail s]
    rw [rustLines_append_of_ends _ _ (endsWithNl_donePart s),
      rustLines_no_nl _ (rawTail_no_nl s) h]

theorem rustLines_ne_nil (s : List Char) (h : s ≠ []) : rustLines s ≠ [] := by
  by_cases hr : rawTail s = []
  · have hd : donePart s = s := by
      have := donePart_append_rawTail s
      rwa [hr, List.append_nil] at this
    rcases endsWithNl_donePart s with h' | h'
    · exact absurd (hd ▸ h') h
    · rw [hd] at h'
      obtain ⟨a, rfl⟩ := endsWithNl_exists s h'
      rw [rustLines_concat_nl a]
      simp [splitNl_ne_nil a]
  · rw [rustLines_split s, if_neg hr]
    simp

theorem rawTail_ne_nil (s : List Char) (h1 : s ≠ []) (h2 : endsWithNl s = false) :
    rawTail s ≠ [] := by
  induction s with
  | nil => exact absurd rfl h1
  | cons c cs ih =>
    rw [rawTail_cons]
    by_cases h : '\n' ∈ cs
    · rw [if_pos h]
      have hcs : cs ≠ [] := by rintro rfl; simp at h
      exact ih hcs (by rwa [endsWithNl_cons c cs hcs] at h2)
    · rw [if_neg h]
      by_cases hc : c = '\n'
      · rw [if_pos hc]
        rintro rfl
        rw [hc] at h2
        simp [endsWithNl] at h2
      · rw [if_neg hc]
        simp

/-- One iteration of the chunk loop's line handling, `api_proxy.rs:245-263`:
the decoded chunk text is appended to the carry-over buffer; the result is
split with `str::lines`; if the buffer does not end in `'\n'` the last line
is held back as the new buffer and the rest are the complete lines to
process. -/
structure FeedOut where
  buffer : List Char
  lines : List (List Char)
deriving DecidableEq, Repr

def feedText (b : List Char) : FeedOut :=
  let ls := rustLines b
  let remaining := if !endsWithNl b && !ls.isEmpty then ls.getLastD [] else []
  if !remaining.isEmpty then ⟨remaining, ls.dropLast⟩ else ⟨[], ls⟩

def feed (buffer chunk : List Char) : FeedOut := feedText (buffer ++ chunk)

/-- Feeding a list of chunks one at a time, collecting all complete lines in
order (the line-reassembler part of the `while let Some(chunk_result)` loop). -/
def feedAll (buffer : List Char) : List (List Char) → List Char × List (List Char)
  | [] => (buffer, [])
  | c :: cs =>
    let o := feed buffer c
    let r := feedAll o.buffer cs
    (r.1, o.lines ++ r.2)

theorem feedText_eq (b : List Char) :
    feedText b = ⟨rawTail b, rustLines (donePart b)⟩ := by
  by_cases hnil : b = []
  · subst hnil; rfl
  · by_cases he : endsWithNl b
    · have hd : donePart b = b := donePart_of_ends b (Or.inr he)
      have hr : rawTail b = [] := by
        have h3 := donePart_append_rawTail b
        rw [hd] at h3
        have h4 : b ++ rawTail b = b ++ [] := by rw [List.append_nil]; exact h3
        exact List.append_cancel_left h4
      simp only [feedText, he]
      simp [hr, hd]
    · have he' : endsWithNl b = false := by simpa using he
      have hls := rustLines_ne_nil b hnil
      have hr := rawTail_ne_nil b hnil he'
      have hemp : (rustLines b).isEmpty = false := by
        cases hq : rustLines b with
        | nil => exact absurd hq hls
        | cons a as => rfl
      have hsplit := rustLines_split b
      rw [if_neg hr] at hsplit
      simp only [feedText, he', hemp, Bool.not_false, Bool.and_self, if_pos]
      rw [hsplit, List.getLastD_concat, List.dropLast_concat]
      have hre : (rawTail b).isEmpty = false := by
        cases hq : rawTail b with
        | nil => exact absurd hq hr
        | cons a as => rfl
      simp [hre]

theorem rawTail_rawTail_append (t f : List Char) :
    rawTail (rawTail t ++ f) = rawTail (t ++ f) := by
  rw [rawTail_append, rawTail_append]
  by_cases hf : '\n' ∈ f
  · rw [if_pos hf, if_pos hf]
  · rw [if_neg hf, if_neg hf, rawTail_eq_self (rawTail t) (rawTail_no_nl t)]

theorem donePart_merge (t f : List Char) :
    rustLines (donePart (t ++ f)) =
      rustLines (donePart t) ++ rustLines (donePart (rawTail t ++ f)) := by
  conv_lhs => rw [← donePart_append_rawTail t]
  rw [List.append_assoc, donePart_append]
  by_cases hf : '\n' ∈ rawTail t ++ f
  · rw [if_pos hf, rustLines_append_of_ends _ _ (endsWithNl_donePart t)]
  · rw [if_neg hf, donePart_of_ends _ (endsWithNl_donePart t),
      donePart_eq_nil _ hf, rustLines_nil, List.append_nil]

theorem feedAll_eq (cs : List (List Char)) : ∀ b : List Char, '\n' ∉ b →
    feedAll b cs = (rawTail (b ++ cs.flatten), rustLines (donePart (b ++ cs.flatten))) := by
  induction cs with
  | nil =>
    intro b hb
    simp only [feedAll, List.flatten_nil, List.append_nil]
    rw [rawTail_eq_self b hb, donePart_eq_nil b hb, rustLines_nil]
  | cons c cs ih =>
    intro b hb
    simp only [feedAll, feed, feedText_eq]
    rw [ih (rawTail (b ++ c)) (rawTail_no_nl _), List.flatten_cons,
      ← List.append_assoc]
    rw [rawTail_rawTail_append (b ++ c) cs.flatten,
      ← donePart_merge (b ++ c) cs.flatten]

/-- Claim C2 (confirmed): for every byte sequence and every partition of it
into non-empty chunks, the line reassembler of `api_stream_proxy`
(`api_proxy.rs:245-263`) yields, across the chunk-at-a-time run, exactly the
lines it yields when the whole sequence arrives as one chunk, in the same
order (so no line is split across yields or yielded twice), and ends with
the same carry-over buffer. -/
theorem line_reassembly_rechunk_invariant (cs : List (List Char))
    (hne : ∀ c ∈ cs, c ≠ []) :
    feedAll [] cs = feedAll [] [cs.flatten] := by
  have _hu := hne
  rw [feedAll_eq cs [] (by simp),
    feedAll_eq [cs.flatten] [] (by simp)]
  simp

/-- Witness for C2 at the chunking `["da", "ta\nx"]` of `"data\nx"`. -/
theorem line_reassembly_rechunk_invariant_witness :
    (∀ c ∈ ["da".toList, "ta\nx".toList], c ≠ []) ∧
      feedAll [] ["da".toList, "ta\nx".toList] =
        feedAll [] [["da".toList, "ta\nx".toList].flatten] :=
  ⟨by decide, line_reassembly_rechunk_invariant _ (by decide)⟩

/-- One record-delivery attempt: the payload handed to
`app.emit("stream-chunk", ...)` and whether the emit call succeeded. -/
structure EmitAttempt where
  data : List Char
  ok : Bool
deriving DecidableEq, Repr

/-- Result of processing one batch of complete lines: the Pending-Data Flag
(`pending_data_prefix`), the number of emit attempts made so far, and the
attempts of this batch in order. -/
structure LinesOut where
  pending : Bool
  counter : Nat
  attempts : List EmitAttempt
deriving DecidableEq, Repr

/-- Rust `trimmed.starts_with('{') || trimmed.starts_with('[')`. -/
def isBraceStart (t : List Char) : Bool :=
  match t with
  | c :: _ => c = '{' || c = '['
  | [] => false

/-- The SSE data-field extraction loop over one batch of complete lines
(`api_proxy.rs:266-349`), translated branch for branch:

* blank or comment lines are skipped;
* a line whose trimmed text is exactly `data:` merges the *next line of the
  same batch* (whatever it is) into one `data: <next trimmed>` record,
  consuming the next line only when it starts with `{`/`[`; with no next
  line in the batch it sets the Pending-Data Flag and the loop ends;
* a line whose trimmed text starts with `data:` followed by anything
  non-empty emits `data: <trimmed value>` (the flag is left untouched);
* any other line starting with `{`/`[` while the flag is set emits
  `data: <trimmed>` and clears the flag;
* anything else is ignored.

Every emitted record carries a trailing `'\n'`.  `sink n` is the result of
the `n`-th `emit` call; on a failed emit the Rust `break` leaves this inner
line loop (only). -/
def processLines (sink : Nat → Bool) : Bool → Nat → List (List Char) → LinesOut
  | pending, n, [] => ⟨pending, n, []⟩
  | pending, n, line :: rest =>
    let t := trim line
    if t.isEmpty || t.head? == some ':' then
      processLines sink pending n rest
    else if t == strData || startsWithList strData t then
      if t == strData then
        match rest with
        | [] => ⟨true, n, []⟩
        | next :: rest2 =>
          let fl := strData ++ (' ' :: trim next) ++ ['\n']
          if isBraceStart (trim next) then
            if sink n then
              let o := processLines sink pending (n + 1) rest2
              ⟨o.pending, o.counter, ⟨fl, true⟩ :: o.attempts⟩
            else ⟨pending, n + 1, [⟨fl, false⟩]⟩
          else
            if sink n then
              let o := processLines sink pending (n + 1) (next :: rest2)
              ⟨o.pending, o.counter, ⟨fl, true⟩ :: o.attempts⟩
            else ⟨pending, n + 1, [⟨fl, false⟩]⟩
      else
        let jt := trim (t.drop 5)
        if jt.isEmpty then
          processLines sink true n rest
        else
          let fl := strData ++ (' ' :: jt) ++ ['\n']
          if sink n then
            let o := processLines sink pending (n + 1) rest
            ⟨o.pending, o.counter, ⟨fl, true⟩ :: o.attempts⟩
          else ⟨pending, n + 1, [⟨fl, false⟩]⟩
    else if pending && isBraceStart t then
      let fl := strData ++ (' ' :: t) ++ ['\n']
      if sink n then
        let o := processLines sink false (n + 1) rest
        ⟨o.pending, o.counter, ⟨fl, true⟩ :: o.attempts⟩
      else ⟨false, n + 1, [⟨fl, false⟩]⟩
    else
      processLines sink pending n rest

theorem processLines_nil (sink : Nat → Bool) (pending : Bool) (n : Nat) :
    processLines sink pending n [] = ⟨pending, n, []⟩ := by
  rw [processLines.eq_def]

theorem processLines_cons (sink : Nat → Bool) (pending : Bool) (n : Nat)
    (line : List Char) (rest : List (List Char)) :
    processLines sink pending n (line :: rest) =
      (if (trim line).isEmpty || (trim line).head? == some ':' then
        processLines sink pending n rest
      else if trim line == strData || startsWithList strData (trim line) then
        if trim line == strData then
          match rest with
          | [] => ⟨true, n, []⟩
          | next :: rest2 =>
            if isBraceStart (trim next) then
              if sink n then
                let o := processLines sink pending (n + 1) rest2
                ⟨o.pending, o.counter,
                  ⟨strData ++ (' ' :: trim next) ++ ['\n'], true⟩ :: o.attempts⟩
              else ⟨pending, n + 1, [⟨strData ++ (' ' :: trim next) ++ ['\n'], false⟩]⟩
            else
              if sink n then
                let o := processLines sink pending (n + 1) (next :: rest2)
                ⟨o.pending, o.counter,
                  ⟨strData ++ (' ' :: trim next) ++ ['\n'], true⟩ :: o.attempts⟩
              else ⟨pending, n + 1, [⟨strData ++ (' ' :: trim next) ++ ['\n'], false⟩]⟩
        else
          if (trim ((trim line).drop 5)).isEmpty then
            processLines sink true n rest
          else
            if sink n then
              let o := processLines sink pending (n + 1) rest
              ⟨o.pending, o.counter,
                ⟨strData ++ (' ' :: trim ((trim line).drop 5)) ++ ['\n'], true⟩ :: o.attempts⟩
            else
              ⟨pending, n + 1,
                [⟨strData ++ (' ' :: trim ((trim line).drop 5)) ++ ['\n'], false⟩]⟩
      else if pending && isBraceStart (trim line) then
        if sink n then
          let o := processLines sink false (n + 1) rest
          ⟨o.pending, o.counter, ⟨strData ++ (' ' :: trim line) ++ ['\n'], true⟩ :: o.attempts⟩
        else ⟨false, n + 1, [⟨strData ++ (' ' :: trim line) ++ ['\n'], false⟩]⟩
      else
        processLines sink pending n rest) := by
  rw [processLines.eq_def]

/-- The post-loop flush (`api_proxy.rs:373-388`): a non-blank carry-over
buffer left at end-of-input is always emitted (with a `data: ` label
synthesized only for `{`/`[` content); delivery failure is ignored
(`let _ = ...`). -/
def finalFlush (sink : Nat → Bool) (n : Nat) (buffer : List Char) : List EmitAttempt :=
  let t := trim buffer
  if !t.isEmpty then
    let formatted :=
      if startsWithList strData t then buffer
      else if isBraceStart t then strData ++ (' ' :: t)
      else buffer
    [⟨formatted ++ ['\n'], sink n⟩]
  else []

/-- The mutable state of one streaming pipeline: the Carry-over Buffer and
the Pending-Data Flag. -/
structure PipeState where
  buffer : List Char
  pending : Bool
deriving DecidableEq, Repr

structure RunOut where
  state : PipeState
  counter : Nat
  attempts : List EmitAttempt
deriving DecidableEq, Repr

/-- One `Ok(chunk)`/`Ok(text)` iteration of the outer loop: reassemble lines,
then run the extraction loop on the complete lines. -/
def processChunk (sink : Nat → Bool) (st : PipeState) (n : Nat) (chunk : List Char) :
    RunOut :=
  let o := feed st.buffer chunk
  let r := processLines sink st.pending n o.lines
  ⟨⟨o.buffer, r.pending⟩, r.counter, r.attempts⟩

/-- The outer `while let Some(chunk_result)` loop over all chunks (each
assumed transport-`Ok` and UTF-8 clean): note that it continues with the
next chunk whatever happened inside the line loop. -/
def runChunks (sink : Nat → Bool) : PipeState → Nat → List (List Char) → RunOut
  | st, n, [] => ⟨st, n, []⟩
  | st, n, c :: cs =>
    let r1 := processChunk sink st n c
    let r2 := runChunks sink r1.state r1.counter cs
    ⟨r2.state, r2.counter, r1.attempts ++ r2.attempts⟩

/-- The full happy-path streaming pipeline body: chunk loop then final
flush, starting from an empty buffer and a cleared flag. -/
def pipelineAttempts (sink : Nat → Bool) (chunks : List (List Char)) : List EmitAttempt :=
  let r := runChunks sink ⟨[], false⟩ 0 chunks
  r.attempts ++ finalFlush sink r.counter r.state.buffer

def sinkAlways : Nat → Bool := fun _ => true

/-- The emitted `stream-chunk` payload sequence when every delivery
succeeds. -/
def pipelineRecords (chunks : List (List Char)) : List (List Char) :=
  (pipelineAttempts sinkAlways chunks).map EmitAttempt.data

theorem dropWhile_head_not (p : Char → Bool) (l : List Char) (a : Char)
    (h : (l.dropWhile p).head? = some a) : p a = false := by
  induction l with
  | nil => simp [List.dropWhile] at h
  | cons c cs ih =>
    rw [List.dropWhile_cons] at h
    by_cases hp : p c
    · rw [if_pos hp] at h; exact ih h
    · rw [if_neg hp] at h
      simp only [List.head?_cons, Option.some.injEq] at h
      cases hpc : p c with
      | true => exact absurd hpc hp
      | false => rw [← h]; exact hpc

theorem trim_getLast_not_ws (s : List Char) (a : Char)
    (h : (trim s).getLast? = some a) : rustIsWhitespace a = false := by
  rw [trim, trimEnd, List.getLast?_reverse] at h
  exact dropWhile_head_not _ _ _ h

theorem mem_ws_of_trim_eq_nil (u : List Char) (h : trim u = []) :
    ∀ c ∈ u, rustIsWhitespace c = true := by
  intro c hc
  have h3 : (trimStart u).reverse.dropWhile rustIsWhitespace = [] := by
    have h2 := congrArg List.reverse h
    simpa [trim, trimEnd] using h2
  have h4 := List.dropWhile_eq_nil_iff.mp h3
  have hsplit := List.takeWhile_append_dropWhile (p := rustIsWhitespace) (l := u)
  rw [← hsplit] at hc
  rcases List.mem_append.mp hc with hm | hm
  · exact List.mem_takeWhile_imp hm
  · exact h4 c (List.mem_reverse.mpr hm)

theorem startsWithList_self (p : List Char) : startsWithList p p = true := by
  induction p with
  | nil => rfl
  | cons a as ih => simp [startsWithList, ih]

theorem startsWithList_exists (p l : List Char) (h : startsWithList p l = true) :
    l = p ++ l.drop p.length := by
  induction p generalizing l with
  | nil => simp
  | cons a as ih =>
    cases l with
    | nil => simp [startsWithList] at h
    | cons b bs =>
      simp only [startsWithList, Bool.and_eq_true, beq_iff_eq] at h
      obtain ⟨rfl, h2⟩ := h
      simpa using ih bs h2

theorem trim_drop5_ne_nil (l : List Char)
    (hsw : startsWithList strData (trim l) = true)
    (hne : trim l ≠ strData) :
    (trim ((trim l).drop 5)).isEmpty = false := by
  have hdec : trim l = strData ++ (trim l).drop 5 := by
    have h0 := startsWithList_exists strData (trim l) hsw
    have hlen : strData.length = 5 := by decide
    rwa [hlen] at h0
  have hr : (trim l).drop 5 ≠ [] := by
    intro h0
    rw [h0, List.append_nil] at hdec
    exact hne hdec
  cases hq : (trim ((trim l).drop 5)).isEmpty with
  | false => rfl
  | true =>
    exfalso
    have htr : trim ((trim l).drop 5) = [] := by
      cases hw : trim ((trim l).drop 5) with
      | nil => rfl
      | cons x xs => rw [hw] at hq; simp at hq
    have hws := mem_ws_of_trim_eq_nil _ htr
    cases hg : ((trim l).drop 5).getLast? with
    | none =>
      cases hx : (trim l).drop 5 with
      | nil => exact hr hx
      | cons x xs => rw [hx] at hg; simp [List.getLast?] at hg
    | some a =>
      have hmem : a ∈ (trim l).drop 5 := List.mem_of_getLast?_eq_some hg
      have hwa := hws a hmem
      have hglast : (trim l).getLast? = some a := by
        conv_lhs => rw [hdec]
        rw [List.getLast?_append_of_ne_nil _ hr]
        exact hg
      rw [trim_getLast_not_ws l a hglast] at hwa
      exact Bool.false_ne_true hwa

/-- The record (if any) that the extraction loop emits for one line when the
Pending-Data Flag is clear and no line of the input is a bare `data:` label:
blank and comment lines and lines not starting with `data:` yield nothing;
a `data:`-prefixed line yields `data: <trimmed value>` plus newline. -/
def lineRecord (l : List Char) : Option (List Char) :=
  let t := trim l
  if t.isEmpty || t.head? == some ':' then none
  else if startsWithList strData t then
    some (strData ++ (' ' :: trim (t.drop 5)) ++ ['\n'])
  else none

theorem processLines_pure (ls : List (List Char)) : ∀ n : Nat,
    (∀ l ∈ ls, trim l ≠ strData) →
    processLines sinkAlways false n ls =
      ⟨false, n + (ls.filterMap lineRecord).length,
        (ls.filterMap lineRecord).map (fun d => ⟨d, true⟩)⟩ := by
  induction ls with
  | nil => intro n _; simp [processLines_nil]
  | cons l rest ih =>
    intro n h
    have hl : trim l ≠ strData := h l (List.mem_cons_self l rest)
    have hrest : ∀ x ∈ rest, trim x ≠ strData :=
      fun x hx => h x (List.mem_cons_of_mem l hx)
    have hbeq : (trim l == strData) = false := by
      cases hq : trim l == strData with
      | false => rfl
      | true => exact absurd (eq_of_beq hq) hl
    rw [processLines_cons]
    simp only [lineRecord, List.filterMap_cons]
    by_cases hblank : ((trim l).isEmpty || (trim l).head? == some ':') = true
    · rw [if_pos hblank, if_pos hblank, ih n hrest]
    · rw [if_neg hblank, if_neg hblank]
      by_cases hsw : startsWithList strData (trim l) = true
      · have hor : (trim l == strData || startsWithList strData (trim l)) = true := by
          rw [hsw, Bool.or_true]
        rw [if_pos hor, if_pos hsw, if_neg (by rw [hbeq]; exact Bool.false_ne_true)]
        rw [trim_drop5_ne_nil l hsw hl]
        simp only [Bool.false_eq_true, if_false]
        have hsink : sinkAlways n = true := rfl
        rw [if_pos hsink, ih (n + 1) hrest]
        simp only [List.length_cons, List.map_cons]
        congr 1
        omega
      · have hswf : startsWithList strData (trim l) = false := by
          cases hq : startsWithList strData (trim l) with
          | false => rfl
          | true => exact absurd hq hsw
        have hor : (trim l == strData || startsWithList strData (trim l)) = false := by
          rw [hbeq, hswf]
          rfl
        rw [if_neg (by rw [hor]; exact Bool.false_ne_true)]
        rw [if_neg (show ¬(false && isBraceStart (trim l)) = true by simp)]
        rw [if_neg (by rw [hswf]; exact Bool.false_ne_true), ih n hrest]

theorem runChunks_nil (sink : Nat → Bool) (st : PipeState) (n : Nat) :
    runChunks sink st n [] = ⟨st, n, []⟩ := by
  rw [runChunks.eq_def]

theorem runChunks_cons (sink : Nat → Bool) (st : PipeState) (n : Nat)
    (c : List Char) (cs : List (List Char)) :
    runChunks sink st n (c :: cs) =
      (let r1 := processChunk sink st n c
       let r2 := runChunks sink r1.state r1.counter cs
       ⟨r2.state, r2.counter, r1.attempts ++ r2.attempts⟩) := by
  rw [runChunks.eq_def]

theorem runChunks_pure (cs : List (List Char)) : ∀ (b : List Char) (n : Nat),
    '\n' ∉ b →
    (∀ l ∈ rustLines (donePart (b ++ cs.flatten)), trim l ≠ strData) →
    runChunks sinkAlways ⟨b, false⟩ n cs =
      ⟨⟨rawTail (b ++ cs.flatten), false⟩,
        n + ((rustLines (donePart (b ++ cs.flatten))).filterMap lineRecord).length,
        ((rustLines (donePart (b ++ cs.flatten))).filterMap lineRecord).map
          (fun d => ⟨d, true⟩)⟩ := by
  induction cs with
  | nil =>
    intro b n hb _
    rw [runChunks_nil]
    simp only [List.flatten_nil, List.append_nil]
    rw [rawTail_eq_self b hb, donePart_eq_nil b hb, rustLines_nil]
    simp
  | cons c cs ih =>
    intro b n hb h
    have hsplit : rustLines (donePart (b ++ (c :: cs).flatten)) =
        rustLines (donePart (b ++ c)) ++
          rustLines (donePart (rawTail (b ++ c) ++ cs.flatten)) := by
      rw [List.flatten_cons, ← List.append_assoc]
      exact donePart_merge (b ++ c) cs.flatten
    have h1 : ∀ l ∈ rustLines (donePart (b ++ c)), trim l ≠ strData := by
      intro l hl
      apply h
      rw [hsplit]
      exact List.mem_append_left _ hl
    have h2 : ∀ l ∈ rustLines (donePart (rawTail (b ++ c) ++ cs.flatten)),
        trim l ≠ strData := by
      intro l hl
      apply h
      rw [hsplit]
      exact List.mem_append_right _ hl
    rw [runChunks_cons]
    simp only [processChunk, feed, feedText_eq]
    rw [processLines_pure _ n h1, ih (rawTail (b ++ c)) _ (rawTail_no_nl _) h2]
    rw [hsplit, List.filterMap_append, List.map_append, List.length_append]
    simp only [List.flatten_cons, ← List.append_assoc,
      rawTail_rawTail_append (b ++ c) cs.flatten]
    congr 1
    omega

/-- Claim C1 counterexample: the SSE-shaped input `"data:\ndata: ok\n"`
split at the line boundary produces one record, while the same bytes as a
single chunk produce two (the batch-local lookahead after a bare `data:`
label merges the following `data: ok` line and then processes it again). -/
theorem data_rechunk_counterexample :
    "data:\n".toList ++ "data: ok\n".toList = "data:\ndata: ok\n".toList ∧
    pipelineRecords ["data:\ndata: ok\n".toList] =
      ["data: data: ok\n".toList, "data: ok\n".toList] ∧
    pipelineRecords ["data:\n".toList, "data: ok\n".toList] =
      ["data: ok\n".toList] ∧
    pipelineRecords ["data:\n".toList, "data: ok\n".toList] ≠
      pipelineRecords ["data:\ndata: ok\n".toList] := by
  refine ⟨rfl, by decide, by decide, by decide⟩

/-- Claim C1 (corrected, amended): re-chunking invariance of the emitted
record sequence holds for every SSE-shaped input none of whose lines is a
bare `data:` label (trimmed text exactly `data:`); with bare labels the
batch-local lookahead makes the output depend on the chunking. -/
theorem data_rechunk_invariance_no_bare_label (cs : List (List Char))
    (hne : ∀ c ∈ cs, c ≠ [])
    (hnb : ∀ l ∈ rustLines cs.flatten, trim l ≠ strData) :
    pipelineRecords cs = pipelineRecords [cs.flatten] := by
  have _hu := hne
  have hsub : ∀ l ∈ rustLines (donePart cs.flatten), trim l ≠ strData := by
    intro l hl
    apply hnb
    rw [rustLines_split cs.flatten]
    exact List.mem_append_left _ hl
  have h1 := runChunks_pure cs [] 0 (by simp) (by simpa using hsub)
  have h2 := runChunks_pure [cs.flatten] [] 0 (by simp)
    (by simpa using hsub)
  simp only [pipelineRecords, pipelineAttempts]
  rw [h1, h2]
  simp

/-- Witness for the amended C1 at `["data: a\nda", "ta: b\n"]`, a chunking
of `"data: a\ndata: b\n"` that splits the second `data:` label itself. -/
theorem data_rechunk_invariance_witness :
    (∀ c ∈ ["data: a\nda".toList, "ta: b\n".toList], c ≠ []) ∧
    (∀ l ∈ rustLines (["data: a\nda".toList, "ta: b\n".toList]).flatten,
      trim l ≠ strData) ∧
    pipelineRecords ["data: a\nda".toList, "ta: b\n".toList] =
      pipelineRecords [(["data: a\nda".toList, "ta: b\n".toList]).flatten] :=
  ⟨by decide, by decide,
    data_rechunk_invariance_no_bare_label _ (by decide) (by decide)⟩

/-- Claim C3 counterexample: processing the label-with-value line `data: ok`
with the Pending-Data Flag set leaves the flag set (the claim says it is
cleared and the prior bare label discarded); observably, after
`data:` · `data: ok` · `[1]` the stale label still merges with the later
`[1]` line, producing a second record. -/
theorem data_value_line_flag_counterexample :
    (processLines sinkAlways true 0 ["data: ok".toList]).pending = true ∧
    pipelineRecords ["data:\n".toList, "data: ok\n".toList, "[1]\n".toList] =
      ["data: ok\n".toList, "data: [1]\n".toList] := by
  exact ⟨by decide, by decide⟩

/-- Claim C3 (corrected, amended): a line whose trimmed text starts with
`data:` and has non-whitespace content after the colon emits exactly one
record, `data: ` ++ trimmed value ++ `'\n'` — but the Pending-Data Flag is
left unchanged, not cleared (a prior bare label is not discarded). -/
theorem data_value_line_emits_one_record (sink : Nat → Bool) (pending : Bool)
    (n : Nat) (l : List Char) (rest : List (List Char))
    (hsw : startsWithList strData (trim l) = true)
    (hjt : (trim ((trim l).drop 5)).isEmpty = false) :
    processLines sink pending n (l :: rest) =
      (if sink n then
        let o := processLines sink pending (n + 1) rest
        ⟨o.pending, o.counter,
          ⟨strData ++ (' ' :: trim ((trim l).drop 5)) ++ ['\n'], true⟩ :: o.attempts⟩
      else
        ⟨pending, n + 1,
          [⟨strData ++ (' ' :: trim ((trim l).drop 5)) ++ ['\n'], false⟩]⟩) := by
  have hdec : trim l = strData ++ (trim l).drop 5 := by
    have h0 := startsWithList_exists strData (trim l) hsw
    have hlen : strData.length = 5 := by decide
    rwa [hlen] at h0
  have hl : trim l ≠ strData := by
    intro h0
    have h5 : (trim l).drop 5 = [] := by rw [h0]; decide
    rw [h5] at hjt
    simp [trim, trimStart, trimEnd] at hjt
  have hbeq : (trim l == strData) = false := by
    cases hq : trim l == strData with
    | false => rfl
    | true => exact absurd (eq_of_beq hq) hl
  have hblank : ((trim l).isEmpty || (trim l).head? == some ':') = false := by
    rw [hdec]
    rfl
  rw [processLines_cons]
  rw [if_neg (by rw [hblank]; exact Bool.false_ne_true)]
  rw [if_pos (by rw [hsw, Bool.or_true])]
  rw [if_neg (by rw [hbeq]; exact Bool.false_ne_true)]
  rw [if_neg (by rw [hjt]; exact Bool.false_ne_true)]

/-- Witness for the amended C3 at `data: ok` with the flag initially set. -/
theorem data_value_line_emits_one_record_witness :
    startsWithList strData (trim "data: ok".toList) = true ∧
    (trim ((trim "data: ok".toList).drop 5)).isEmpty = false ∧
    processLines sinkAlways true 0 ["data: ok".toList] =
      (if sinkAlways 0 then
        let o := processLines sinkAlways true (0 + 1) []
        ⟨o.pending, o.counter,
          ⟨strData ++ (' ' :: trim ((trim "data: ok".toList).drop 5)) ++ ['\n'],
            true⟩ :: o.attempts⟩
      else
        ⟨true, 0 + 1,
          [⟨strData ++ (' ' :: trim ((trim "data: ok".toList).drop 5)) ++ ['\n'],
            false⟩]⟩) :=
  ⟨by decide, by decide,
    data_value_line_emits_one_record sinkAlways true 0 _ [] (by decide) (by decide)⟩

/-- Claim C5 counterexample: the non-data line `event: ping`, arriving as
the final unterminated content of the stream, is flushed at end-of-input and
emitted as a record (the claim says it produces no record). -/
theorem non_data_final_line_counterexample :
    pipelineRecords ["event: ping".toList] = ["event: ping\n".toList] ∧
    pipelineRecords ["event: ping".toList] ≠ [] := by
  exact ⟨by decide, by decide⟩

/-- Claim C5 (corrected, amended): a complete line that is not blank, not a
comment, not `data:`-prefixed and not a `{`/`[` line while the flag is set
contributes nothing in the line loop (no record, no state change); the
spec's four-line example emits exactly `data: ok\n`.  However, the final
unterminated remainder is flushed at end-of-input whenever its trimmed text
is non-blank, even when it is not a data line. -/
theorem non_data_lines_ignored_in_loop :
    (∀ (sink : Nat → Bool) (p : Bool) (n : Nat) (l : List Char)
      (rest : List (List Char)),
      (trim l).isEmpty = false →
      ((trim l).head? == some ':') = false →
      startsWithList strData (trim l) = false →
      (p && isBraceStart (trim l)) = false →
      processLines sink p n (l :: rest) = processLines sink p n rest) ∧
    (∀ (sink : Nat → Bool) (n : Nat) (b : List Char),
      (trim b).isEmpty = false →
      startsWithList strData (trim b) = false →
      isBraceStart (trim b) = false →
      finalFlush sink n b = [⟨b ++ ['\n'], sink n⟩]) ∧
    pipelineRecords ["event: ping\n: comment\n\ndata: ok\n".toList] =
      ["data: ok\n".toList] := by
  refine ⟨?_, ?_, by decide⟩
  · intro sink p n l rest h1 h2 h3 h4
    have hbeq : (trim l == strData) = false := by
      cases hq : trim l == strData with
      | false => rfl
      | true =>
        have := eq_of_beq hq
        rw [this, startsWithList_self] at h3
        exact absurd h3.symm Bool.false_ne_true
    rw [processLines_cons]
    rw [if_neg (by rw [h1, h2]; exact Bool.false_ne_true)]
    rw [if_neg (by rw [hbeq, h3]; exact Bool.false_ne_true)]
    rw [if_neg (by rw [h4]; exact Bool.false_ne_true)]
  · intro sink n b h1 h2 h3
    simp [finalFlush, h1, h2, h3]

/-- Witness for the amended C5: the line-loop clause at `event: ping`, and
the flush clause at buffer `event: ping`. -/
theorem non_data_lines_ignored_witness :
    (trim "event: ping".toList).isEmpty = false ∧
    ((trim "event: ping".toList).head? == some ':') = false ∧
    startsWithList strData (trim "event: ping".toList) = false ∧
    (false && isBraceStart (trim "event: ping".toList)) = false ∧
    processLines sinkAlways false 0 ["event: ping".toList] =
      processLines sinkAlways false 0 [] ∧
    finalFlush sinkAlways 0 "event: ping".toList =
      [⟨"event: ping".toList ++ ['\n'], sinkAlways 0⟩] :=
  ⟨by decide, by decide, by decide, by decide,
    non_data_lines_ignored_in_loop.1 sinkAlways false 0 _ []
      (by decide) (by decide) (by decide) (by decide),
    non_data_lines_ignored_in_loop.2.1 sinkAlways 0 _
      (by decide) (by decide) (by decide)⟩

/-- Claim C8 counterexample: the lines `data:` and `` delivered in a single
chunk `"data:\n\n"` produce one record `data: \n` (the batch lookahead
merges the empty line), not the zero records the claim states. -/
theorem dangling_label_counterexample :
    pipelineRecords ["data:\n\n".toList] = ["data: \n".toList] ∧
    pipelineRecords ["data:\n\n".toList] ≠ [] := by
  exact ⟨by decide, by decide⟩

/-- Claim C8 (corrected, amended): at end-of-input nothing is emitted for a
dangling bare label — the flush inspects only the carry-over buffer, never
the Pending-Data Flag, so whenever the leftover buffer is blank no record is
added.  The example `data:` · `` · end-of-input yields zero records when the
bare label arrives as the last line of its chunk (chunks `"data:\n"`,
`"\n"`), where the flag really is still set at end-of-input; delivered as
the single chunk `"data:\n\n"` the lookahead emits `data: \n` instead. -/
theorem dangling_label_dropped_at_eoi :
    (∀ (sink : Nat → Bool) (n : Nat) (b : List Char),
      (trim b).isEmpty = true → finalFlush sink n b = []) ∧
    (∀ chunks : List (List Char),
      (trim (runChunks sinkAlways ⟨[], false⟩ 0 chunks).state.buffer).isEmpty
          = true →
      pipelineRecords chunks =
        ((runChunks sinkAlways ⟨[], false⟩ 0 chunks).attempts).map
          EmitAttempt.data) ∧
    pipelineRecords ["data:\n".toList, "\n".toList] = [] ∧
    (runChunks sinkAlways ⟨[], false⟩ 0
      ["data:\n".toList, "\n".toList]).state.pending = true := by
  have hflush : ∀ (sink : Nat → Bool) (n : Nat) (b : List Char),
      (trim b).isEmpty = true → finalFlush sink n b = [] := by
    intro sink n b h1
    simp [finalFlush, h1]
  refine ⟨hflush, ?_, by decide, by decide⟩
  intro chunks h1
  simp only [pipelineRecords, pipelineAttempts]
  rw [hflush _ _ _ h1, List.append_nil]

/-- Witness for the amended C8 at the per-line chunking `"data:\n"`,
`"\n"`. -/
theorem dangling_label_dropped_witness :
    (trim (runChunks sinkAlways ⟨[], false⟩ 0
      ["data:\n".toList, "\n".toList]).state.buffer).isEmpty = true ∧
    pipelineRecords ["data:\n".toList, "\n".toList] =
      ((runChunks sinkAlways ⟨[], false⟩ 0
        ["data:\n".toList, "\n".toList]).attempts).map EmitAttempt.data :=
  ⟨by decide, dangling_label_dropped_at_eoi.2.1 _ (by decide)⟩

theorem processLines_cons_one (sink : Nat → Bool) (pending : Bool) (n : Nat)
    (line : List Char) :
    processLines sink pending n [line] =
      (if (trim line).isEmpty || (trim line).head? == some ':' then
        processLines sink pending n []
      else if trim line == strData || startsWithList strData (trim line) then
        if trim line == strData then
          ⟨true, n, []⟩
        else
          if (trim ((trim line).drop 5)).isEmpty then
            processLines sink true n []
          else
            if sink n then
              let o := processLines sink pending (n + 1) []
              ⟨o.pending, o.counter,
                ⟨strData ++ (' ' :: trim ((trim line).drop 5)) ++ ['\n'], true⟩ :: o.attempts⟩
            else
              ⟨pending, n + 1,
                [⟨strData ++ (' ' :: trim ((trim line).drop 5)) ++ ['\n'], false⟩]⟩
      else if pending && isBraceStart (trim line) then
        if sink n then
          let o := processLines sink false (n + 1) []
          ⟨o.pending, o.counter, ⟨strData ++ (' ' :: trim line) ++ ['\n'], true⟩ :: o.attempts⟩
        else ⟨false, n + 1, [⟨strData ++ (' ' :: trim line) ++ ['\n'], false⟩]⟩
      else
        processLines sink pending n []) := by
  rw [processLines.eq_def]

theorem processLines_cons_cons (sink : Nat → Bool) (pending : Bool) (n : Nat)
    (line next : List Char) (rest2 : List (List Char)) :
    processLines sink pending n (line :: next :: rest2) =
      (if (trim line).isEmpty || (trim line).head? == some ':' then
        processLines sink pending n (next :: rest2)
      else if trim line == strData || startsWithList strData (trim line) then
        if trim line == strData then
          if isBraceStart (trim next) then
            if sink n then
              let o := processLines sink pending (n + 1) rest2
              ⟨o.pending, o.counter,
                ⟨strData ++ (' ' :: trim next) ++ ['\n'], true⟩ :: o.attempts⟩
            else ⟨pending, n + 1, [⟨strData ++ (' ' :: trim next) ++ ['\n'], false⟩]⟩
          else
            if sink n then
              let o := processLines sink pending (n + 1) (next :: rest2)
              ⟨o.pending, o.counter,
                ⟨strData ++ (' ' :: trim next) ++ ['\n'], true⟩ :: o.attempts⟩
            else ⟨pending, n + 1, [⟨strData ++ (' ' :: trim next) ++ ['\n'], false⟩]⟩
        else
          if (trim ((trim line).drop 5)).isEmpty then
            processLines sink true n (next :: rest2)
          else
            if sink n then
              let o := processLines sink pending (n + 1) (next :: rest2)
              ⟨o.pending, o.counter,
                ⟨strData ++ (' ' :: trim ((trim line).drop 5)) ++ ['\n'], true⟩ :: o.attempts⟩
            else
              ⟨pending, n + 1,
                [⟨strData ++ (' ' :: trim ((trim line).drop 5)) ++ ['\n'], false⟩]⟩
      else if pending && isBraceStart (trim line) then
        if sink n then
          let o := processLines sink false (n + 1) (next :: rest2)
          ⟨o.pending, o.counter, ⟨strData ++ (' ' :: trim line) ++ ['\n'], true⟩ :: o.attempts⟩
        else ⟨false, n + 1, [⟨strData ++ (' ' :: trim line) ++ ['\n'], false⟩]⟩
      else
        processLines sink pending n (next :: rest2)) := by
  rw [processLines.eq_def]

theorem all_ok_dropLast_cons (d : List Char) (l : List EmitAttempt)
    (hl : (l.dropLast).all (fun a => a.ok) = true) :
    (((⟨d, true⟩ : EmitAttempt) :: l).dropLast).all (fun a => a.ok) = true := by
  cases l with
  | nil => rfl
  | cons y ys =>
    rw [List.dropLast_cons₂, List.all_cons]
    exact hl

theorem processLines_stops_at_failure (sink : Nat → Bool) (k : Nat) :
    ∀ (ls : List (List Char)) (p : Bool) (n : Nat), ls.length ≤ k →
      (((processLines sink p n ls).attempts.dropLast).all (fun a => a.ok)) = true := by
  induction k with
  | zero =>
    intro ls p n hlen
    have : ls = [] := List.eq_nil_of_length_eq_zero (Nat.le_zero.mp hlen)
    subst this
    rw [processLines_nil]
    rfl
  | succ k ihk =>
    intro ls p n hlen
    cases ls with
    | nil =>
      rw [processLines_nil]
      rfl
    | cons line rest =>
      have hrest : rest.length ≤ k := by
        simpa using Nat.lt_succ_iff.mp (Nat.lt_of_lt_of_le (by simp) hlen)
      cases rest with
      | nil =>
        rw [processLines_cons_one]
        split_ifs <;> rfl
      | cons next rest2 =>
        have hrest2 : rest2.length ≤ k := by
          simp only [List.length_cons] at hrest
          omega
        have hnext : (next :: rest2).length ≤ k := hrest
        rw [processLines_cons_cons]
        split_ifs <;>
          first
            | rfl
            | exact ihk (next :: rest2) p n hnext
            | exact ihk (next :: rest2) true n hnext
            | exact all_ok_dropLast_cons _ _ (ihk rest2 p (n + 1) hrest2)
            | exact all_ok_dropLast_cons _ _ (ihk (next :: rest2) p (n + 1) hnext)
            | exact all_ok_dropLast_cons _ _ (ihk (next :: rest2) false (n + 1) hnext)

/-- Claim C4 counterexample: with a sink whose every delivery fails, the
pipeline attempts the first record of chunk 1, breaks out of that chunk's
line loop — and then still attempts a delivery for chunk 2, so the stream is
not halted by the failed delivery. -/
theorem sink_failure_counterexample :
    pipelineAttempts (fun _ => false)
        ["data: a\ndata: b\n".toList, "data: c\n".toList] =
      [⟨"data: a\n".toList, false⟩, ⟨"data: c\n".toList, false⟩] := by
  decide

/-- Claim C4 (corrected, amended): a failed record delivery aborts only the
current chunk's line batch — within one batch every attempt except possibly
the last succeeded, so nothing more of that batch is processed after a
failure — but the chunk loop continues with the next chunk regardless (the
`break` leaves only the inner line loop), and so does the final flush. -/
theorem sink_failure_stops_batch_only :
    (∀ (sink : Nat → Bool) (p : Bool) (n : Nat) (ls : List (List Char)),
      (((processLines sink p n ls).attempts.dropLast).all (fun a => a.ok)) = true) ∧
    (∀ (sink : Nat → Bool) (st : PipeState) (n : Nat) (c : List Char)
      (cs : List (List Char)),
      (runChunks sink st n (c :: cs)).attempts =
        (processChunk sink st n c).attempts ++
          (runChunks sink (processChunk sink st n c).state
            (processChunk sink st n c).counter cs).attempts) := by
  constructor
  · intro sink p n ls
    exact processLines_stops_at_failure sink ls.length ls p n (Nat.le_refl _)
  · intro sink st n c cs
    rw [runChunks_cons]

/-- The out-of-band signals emitted to the event sink for one stream
(`stream-chunk` / `stream-end` / `stream-error`, all keyed by the stream
handle, which is constant per stream and therefore omitted). -/
inductive StreamSignal
  | chunkSig (data : List Char)
  | endSig
  | errorSig (msg : List Char)
deriving DecidableEq, Repr

/-- The spawned background task of `api_stream_proxy` once a response
arrived (`api_proxy.rs:216-396`): a status `>= 400` emits one
`stream-error` signal (`HTTP Error: <status>`) and returns without reading
the body; otherwise the body chunks run through the pipeline (deliveries
assumed to succeed) followed by one `stream-end` signal. -/
def handleResponse (status : Nat) (body : List (List Char)) : List StreamSignal :=
  if 400 ≤ status then
    [.errorSig ("HTTP Error: ".toList ++ (Nat.repr status).toList)]
  else
    (pipelineRecords body).map .chunkSig ++ [.endSig]

/-- Rust `char::to_uppercase` as used by `str::to_uppercase`, embedded in
the fragment that can influence a comparison against the pure-ASCII method
tables: ASCII `a`-`z` map to `A`-`Z`, and every code point whose full
Unicode uppercase expansion consists only of ASCII characters is expanded —
U+00DF `ß` → `SS`, U+0131 `ı` → `I`, U+017F `ſ` → `S`, and the Latin
ligatures U+FB00-U+FB06 (`ﬀ ﬁ ﬂ ﬃ ﬄ ﬅ ﬆ` → `FF FI FL FFI FFL ST ST`).
Every other code point is kept unchanged; that is sound for the membership
tests below because for every remaining character the real uppercase
expansion itself contains at least one non-ASCII character (e.g. `é` → `É`,
`ŉ` → `ʼN`, `ẖ` → `H` + U+0331, fullwidth and Armenian forms stay
non-ASCII), so the real image and the model image are alike outside the
ASCII verb tables. -/
def rustToUppercaseChar (c : Char) : List Char :=
  if 'a' ≤ c && c ≤ 'z' then [Char.ofNat (c.toNat - 32)]
  else if c.toNat = 0xDF then ['S', 'S']
  else if c.toNat = 0x131 then ['I']
  else if c.toNat = 0x17F then ['S']
  else if c.toNat = 0xFB00 then ['F', 'F']
  else if c.toNat = 0xFB01 then ['F', 'I']
  else if c.toNat = 0xFB02 then ['F', 'L']
  else if c.toNat = 0xFB03 then ['F', 'F', 'I']
  else if c.toNat = 0xFB04 then ['F', 'F', 'L']
  else if c.toNat = 0xFB05 then ['S', 'T']
  else if c.toNat = 0xFB06 then ['S', 'T']
  else [c]

def rustToUppercase (s : List Char) : List Char :=
  (s.map rustToUppercaseChar).flatten

/-- Plain character-wise ASCII case mapping, following the claim's words:
this is what "one of GET, POST, PUT, DELETE, PATCH (case-insensitive)" reads
as, to be compared with the acceptance computed from the source's
`to_uppercase` dispatch. -/
def asciiUpperChar (c : Char) : Char :=
  if 'a' ≤ c && c ≤ 'z' then Char.ofNat (c.toNat - 32) else c

/-- Character-wise case-insensitive equality of method strings (the spec's
reading of "case-insensitive"). -/
def specCaseInsensitiveEq (a b : List Char) : Bool :=
  a.map asciiUpperChar == b.map asciiUpperChar

/-- The method string `po` + U+FB06 (`ﬆ`, LATIN SMALL LIGATURE ST), whose
Rust uppercase is `POST`. -/
def poStLigature : List Char := ['p', 'o', Char.ofNat 0xFB06]

/-- The builder dispatch of `api_stream_proxy` (`api_proxy.rs:186-196`):
`some` stands for the five `client.<verb>` arms, `none` for the
`_ => return Err(...)` arm. -/
def streamMethodArm (m : List Char) : Option (List Char) :=
  let u := rustToUppercase m
  if u = "GET".toList then some u
  else if u = "POST".toList then some u
  else if u = "PUT".toList then some u
  else if u = "DELETE".toList then some u
  else if u = "PATCH".toList then some u
  else none

/-- The builder dispatch of the buffered `api_proxy` (`api_proxy.rs:61-73`):
the same five verbs plus HEAD and OPTIONS. -/
def proxyMethodArm (m : List Char) : Option (List Char) :=
  let u := rustToUppercase m
  if u = "GET".toList then some u
  else if u = "POST".toList then some u
  else if u = "PUT".toList then some u
  else if u = "DELETE".toList then some u
  else if u = "PATCH".toList then some u
  else if u = "HEAD".toList then some u
  else if u = "OPTIONS".toList then some u
  else none

def streamMethods : List (List Char) :=
  ["GET".toList, "POST".toList, "PUT".toList, "DELETE".toList, "PATCH".toList]

def proxyMethods : List (List Char) :=
  streamMethods ++ ["HEAD".toList, "OPTIONS".toList]

/-- The error payload `ApiError { message, status }`. -/
structure ApiErrorM where
  message : List Char
  statusCode : Option Nat
deriving DecidableEq, Repr

/-- The response payload `ApiResponse { status, headers, body }` (headers as
an association list). -/
structure ApiResponseM where
  status : Nat
  headers : List (List Char × List Char)
  body : List Char
deriving DecidableEq, Repr

/-- Outcome of `req_builder.send()` for the buffered path, followed by the
`response.text()` read: the transport abstracted as data. -/
inductive SendOutcome
  | sendFailed (err : List Char)
  | response (status : Nat) (headers : List (List Char × List Char))
      (bodyRead : Except (List Char) (List Char))
deriving Repr

/-- Outcome of `req_builder.send()` for the streaming path: a failure or a
status plus the body's chunk sequence. -/
inductive StreamOutcome
  | sendFailed (err : List Char)
  | response (status : Nat) (body : List (List Char))
deriving DecidableEq, Repr

/-- `api_stream_proxy` (`api_proxy.rs:166-408`): the method is validated
before any transport work — an unsupported method returns the validation
error synchronously and the background task is never spawned (no signal is
emitted) — otherwise the task maps the transport outcome to the stream's
signal sequence. -/
def apiStreamProxy (method : List Char) (t : StreamOutcome) :
    Except ApiErrorM (List StreamSignal) :=
  match streamMethodArm method with
  | none => .error ⟨"Unsupported HTTP method: ".toList ++ method, none⟩
  | some _ =>
    .ok (match t with
      | .sendFailed err =>
        [.errorSig ("HTTP request failed: ".toList ++ err)]
      | .response status body => handleResponse status body)

/-- The buffered `api_proxy` (`api_proxy.rs:45-142`): validate the method;
on transport failure return `HTTP request failed: ...` with no status; on a
response, pass the status through, append the three synthesized
`X-Tauri-*` headers, and return the body — a failed body read becomes an
error carrying the status.  `requestId` and `elapsedMs` stand for the
generated correlation id and the measured elapsed time. -/
def apiProxy (method : List Char) (t : SendOutcome)
    (requestId : List Char) (elapsedMs : Nat) : Except ApiErrorM ApiResponseM :=
  match proxyMethodArm method with
  | none => .error ⟨"Unsupported HTTP method: ".toList ++ method, none⟩
  | some _ =>
    match t with
    | .sendFailed err => .error ⟨"HTTP request failed: ".toList ++ err, none⟩
    | .response status hs bodyRead =>
      match bodyRead with
      | .ok b =>
        .ok ⟨status,
          hs ++ [("X-Tauri-Proxied".toList, "true".toList),
            ("X-Tauri-Request-ID".toList, requestId),
            ("X-Tauri-Elapsed-Ms".toList, (Nat.repr elapsedMs).toList)],
          b⟩
      | .error err =>
        .error ⟨"Failed to read response body: ".toList ++ err, some status⟩

/-- `simple_api_proxy` (`api_proxy.rs:144-162`): build the same request,
call `api_proxy`, and project the outcome to body / message strings. -/
def simpleApiProxy (method : List Char) (t : SendOutcome)
    (requestId : List Char) (elapsedMs : Nat) : Except (List Char) (List Char) :=
  match apiProxy method t requestId elapsedMs with
  | .ok r => .ok r.body
  | .error e => .error e.message

/-- `check_microphone_permission` (`permissions.rs:8-22`): both the Android
arm and the non-Android arm return `Ok(PermissionStatus { granted: true })`. -/
structure PermissionStatusM where
  granted : Bool
deriving DecidableEq, Repr

def check_microphone_permission (androidTarget : Bool) :
    Except (List Char) PermissionStatusM :=
  if androidTarget then .ok ⟨true⟩ else .ok ⟨true⟩

/-- `request_microphone_permission` (`permissions.rs:24-38`): same stub. -/
def request_microphone_permission (androidTarget : Bool) :
    Except (List Char) PermissionStatusM :=
  if androidTarget then .ok ⟨true⟩ else .ok ⟨true⟩

/-- Claim C6 (confirmed): for every upstream status `>= 400` the streaming
task emits exactly one `stream-error` signal — in particular zero
`stream-chunk` records — and never reads the body: the result is the same
for every body, well-formed SSE included. -/
theorem upstream_error_short_circuits (status : Nat) (body : List (List Char))
    (h : 400 ≤ status) :
    handleResponse status body =
      [.errorSig ("HTTP Error: ".toList ++ (Nat.repr status).toList)] ∧
    (∀ s ∈ handleResponse status body, ∀ d, s ≠ .chunkSig d) ∧
    (∀ body' : List (List Char),
      handleResponse status body = handleResponse status body') := by
  have he : handleResponse status body =
      [.errorSig ("HTTP Error: ".toList ++ (Nat.repr status).toList)] := by
    simp [handleResponse, h]
  refine ⟨he, ?_, ?_⟩
  · intro s hs d
    rw [he] at hs
    simp only [List.mem_singleton] at hs
    subst hs
    intro hc
    cases hc
  · intro body'
    rw [he]
    simp [handleResponse, h]

/-- Witness for C6: status 500 with a well-formed SSE body. -/
theorem upstream_error_short_circuits_witness :
    400 ≤ 500 ∧
    (handleResponse 500 ["data: ok\n".toList] =
      [.errorSig ("HTTP Error: ".toList ++ (Nat.repr 500).toList)] ∧
    (∀ s ∈ handleResponse 500 ["data: ok\n".toList], ∀ d, s ≠ .chunkSig d) ∧
    (∀ body' : List (List Char),
      handleResponse 500 ["data: ok\n".toList] = handleResponse 500 body')) :=
  ⟨by decide,
    upstream_error_short_circuits 500 ["data: ok\n".toList] (by decide)⟩

theorem rustToUppercaseChar_ascii (c : Char) (h : c.toNat < 128) :
    rustToUppercaseChar c = [asciiUpperChar c] := by
  by_cases hz : ('a' ≤ c && c ≤ 'z') = true
  · simp [rustToUppercaseChar, asciiUpperChar, hz]
  · have n1 : ¬(c.toNat = 0xDF) := by omega
    have n2 : ¬(c.toNat = 0x131) := by omega
    have n3 : ¬(c.toNat = 0x17F) := by omega
    have n4 : ¬(c.toNat = 0xFB00) := by omega
    have n5 : ¬(c.toNat = 0xFB01) := by omega
    have n6 : ¬(c.toNat = 0xFB02) := by omega
    have n7 : ¬(c.toNat = 0xFB03) := by omega
    have n8 : ¬(c.toNat = 0xFB04) := by omega
    have n9 : ¬(c.toNat = 0xFB05) := by omega
    have n10 : ¬(c.toNat = 0xFB06) := by omega
    simp [rustToUppercaseChar, asciiUpperChar, hz, n1, n2, n3, n4, n5, n6,
      n7, n8, n9, n10]

theorem rustToUppercase_ascii (m : List Char) (h : ∀ c ∈ m, c.toNat < 128) :
    rustToUppercase m = m.map asciiUpperChar := by
  induction m with
  | nil => rfl
  | cons c cs ih =>
    have hc := h c (List.mem_cons_self c cs)
    have hcs : ∀ x ∈ cs, x.toNat < 128 :=
      fun x hx => h x (List.mem_cons_of_mem c hx)
    have ih' := ih hcs
    simp only [rustToUppercase] at ih' ⊢
    rw [List.map_cons, List.flatten_cons, rustToUppercaseChar_ascii c hc,
      List.singleton_append, ih', List.map_cons]

theorem ascii_member_iff (m : List Char) (vs : List (List Char))
    (h : ∀ c ∈ m, c.toNat < 128)
    (hfix : ∀ v ∈ vs, v.map asciiUpperChar = v) :
    rustToUppercase m ∈ vs ↔ ∃ v ∈ vs, specCaseInsensitiveEq m v = true := by
  rw [rustToUppercase_ascii m h]
  constructor
  · intro hm
    refine ⟨m.map asciiUpperChar, hm, ?_⟩
    simp only [specCaseInsensitiveEq]
    rw [hfix _ hm]
    exact beq_self_eq_true _
  · rintro ⟨v, hv, he⟩
    simp only [specCaseInsensitiveEq] at he
    have h2 := eq_of_beq he
    rw [hfix v hv] at h2
    rw [h2]
    exact hv

/-- Claim C7 counterexample: the method string `po` + `ﬆ` (U+FB06) is not a
character-wise case-insensitive spelling of any of the five streaming verbs,
yet Rust's `to_uppercase` maps it to `POST`, so the streaming path accepts
it and proceeds to the transport instead of returning a validation error. -/
theorem method_validation_counterexample :
    specCaseInsensitiveEq poStLigature "GET".toList = false ∧
    specCaseInsensitiveEq poStLigature "POST".toList = false ∧
    specCaseInsensitiveEq poStLigature "PUT".toList = false ∧
    specCaseInsensitiveEq poStLigature "DELETE".toList = false ∧
    specCaseInsensitiveEq poStLigature "PATCH".toList = false ∧
    rustToUppercase poStLigature = "POST".toList ∧
    streamMethodArm poStLigature = some "POST".toList ∧
    apiStreamProxy poStLigature (.response 200 ["data: ok\n".toList]) =
      .ok (handleResponse 200 ["data: ok\n".toList]) := by
  exact ⟨by decide, by decide, by decide, by decide, by decide, by decide,
    by decide, rfl⟩

/-- Claim C7 (corrected, amended): each path accepts exactly the method
strings whose `to_uppercase` image is in its verb table —
GET/POST/PUT/DELETE/PATCH for the streaming path, plus HEAD and OPTIONS for
the buffered path.  Restricted to ASCII method strings this is precisely
character-wise case-insensitive spelling of a table verb, but Unicode case
mappings admit further accepted spellings (such as `poﬆ` → POST and
`optıons` → OPTIONS) that do proceed to I/O.  Every method string outside
the accepted set makes each path return the `Unsupported HTTP method`
validation error synchronously, with a result independent of the transport
(no I/O, and on the streaming path no signal, since the error return
precedes the spawned task). -/
theorem method_validation :
    (∀ m : List Char,
      (streamMethodArm m).isSome = true ↔ rustToUppercase m ∈ streamMethods) ∧
    (∀ m : List Char,
      (proxyMethodArm m).isSome = true ↔ rustToUppercase m ∈ proxyMethods) ∧
    (∀ m : List Char, (∀ c ∈ m, c.toNat < 128) →
      (rustToUppercase m ∈ streamMethods ↔
        ∃ v ∈ streamMethods, specCaseInsensitiveEq m v = true)) ∧
    (∀ m : List Char, (∀ c ∈ m, c.toNat < 128) →
      (rustToUppercase m ∈ proxyMethods ↔
        ∃ v ∈ proxyMethods, specCaseInsensitiveEq m v = true)) ∧
    (∀ (m : List Char) (t : StreamOutcome),
      rustToUppercase m ∉ streamMethods →
      apiStreamProxy m t =
        .error ⟨"Unsupported HTTP method: ".toList ++ m, none⟩) ∧
    (∀ (m : List Char) (t1 t2 : StreamOutcome),
      rustToUppercase m ∉ streamMethods →
      apiStreamProxy m t1 = apiStreamProxy m t2) ∧
    (∀ (m : List Char) (t : SendOutcome) (requestId : List Char)
      (elapsedMs : Nat),
      rustToUppercase m ∉ proxyMethods →
      apiProxy m t requestId elapsedMs =
        .error ⟨"Unsupported HTTP method: ".toList ++ m, none⟩) := by
  have hsarm : ∀ m : List Char, rustToUppercase m ∉ streamMethods →
      streamMethodArm m = none := by
    intro m hm
    simp only [streamMethods, List.mem_cons, not_or] at hm
    obtain ⟨n1, n2, n3, n4, n5, -⟩ := hm
    simp only [streamMethodArm]
    rw [if_neg n1, if_neg n2, if_neg n3, if_neg n4, if_neg n5]
  have hparm : ∀ m : List Char, rustToUppercase m ∉ proxyMethods →
      proxyMethodArm m = none := by
    intro m hm
    simp only [proxyMethods, streamMethods, List.mem_append, List.mem_cons,
      not_or] at hm
    obtain ⟨⟨n1, n2, n3, n4, n5, -⟩, n6, n7, -⟩ := hm
    simp only [proxyMethodArm]
    rw [if_neg n1, if_neg n2, if_neg n3, if_neg n4, if_neg n5, if_neg n6,
      if_neg n7]
  have hstream : ∀ m : List Char,
      (streamMethodArm m).isSome = true ↔ rustToUppercase m ∈ streamMethods := by
    intro m
    constructor
    · intro h
      by_contra hm
      rw [hsarm m hm] at h
      simp at h
    · intro hm
      simp only [streamMethods, List.mem_cons] at hm
      rcases hm with h | h | h | h | h | h
      · simp [streamMethodArm, h]
      · simp [streamMethodArm, h]
      · simp [streamMethodArm, h]
      · simp [streamMethodArm, h]
      · simp [streamMethodArm, h]
      · cases h
  have hproxy : ∀ m : List Char,
      (proxyMethodArm m).isSome = true ↔ rustToUppercase m ∈ proxyMethods := by
    intro m
    constructor
    · intro h
      by_contra hm
      rw [hparm m hm] at h
      simp at h
    · intro hm
      simp only [proxyMethods, streamMethods, List.mem_append, List.mem_cons] at hm
      rcases hm with (h | h | h | h | h | h) | (h | h | h)
      · simp [proxyMethodArm, h]
      · simp [proxyMethodArm, h]
      · simp [proxyMethodArm, h]
      · simp [proxyMethodArm, h]
      · simp [proxyMethodArm, h]
      · cases h
      · simp [proxyMethodArm, h]
      · simp [proxyMethodArm, h]
      · cases h
  refine ⟨hstream, hproxy, ?_, ?_, ?_, ?_, ?_⟩
  · intro m hascii
    exact ascii_member_iff m streamMethods hascii (by decide)
  · intro m hascii
    exact ascii_member_iff m proxyMethods hascii (by decide)
  · intro m t hm
    simp [apiStreamProxy, hsarm m hm]
  · intro m t1 t2 hm
    simp [apiStreamProxy, hsarm m hm]
  · intro m t requestId elapsedMs hm
    simp [apiProxy, hparm m hm]

/-- Witness for C7 at method `TRACE` (rejected by both paths) and the ASCII
string `get` (accepted case-insensitively by the streaming table). -/
theorem method_validation_witness :
    (rustToUppercase "TRACE".toList ∉ streamMethods) ∧
    (rustToUppercase "TRACE".toList ∉ proxyMethods) ∧
    (∀ c ∈ "get".toList, c.toNat < 128) ∧
    apiStreamProxy "TRACE".toList (.response 200 ["data: ok\n".toList]) =
      .error ⟨"Unsupported HTTP method: ".toList ++ "TRACE".toList, none⟩ ∧
    apiProxy "TRACE".toList (.response 200 [] (.ok "hi".toList)) [] 0 =
      .error ⟨"Unsupported HTTP method: ".toList ++ "TRACE".toList, none⟩ ∧
    (rustToUppercase "get".toList ∈ streamMethods ↔
      ∃ v ∈ streamMethods, specCaseInsensitiveEq "get".toList v = true) :=
  ⟨by decide, by decide, by decide,
    method_validation.2.2.2.2.1 "TRACE".toList _ (by decide),
    method_validation.2.2.2.2.2.2 "TRACE".toList _ [] 0 (by decide),
    method_validation.2.2.1 "get".toList (by decide)⟩

/-- Claim C9 (confirmed): for every request and transport outcome,
`simple_api_proxy` is exactly the projection of `api_proxy`: the response's
body on success (status and headers discarded), the error's message on
failure (optional status discarded). -/
theorem simple_proxy_projection (method : List Char) (t : SendOutcome)
    (requestId : List Char) (elapsedMs : Nat) :
    (∀ r : ApiResponseM, apiProxy method t requestId elapsedMs = .ok r →
      simpleApiProxy method t requestId elapsedMs = .ok r.body) ∧
    (∀ e : ApiErrorM, apiProxy method t requestId elapsedMs = .error e →
      simpleApiProxy method t requestId elapsedMs = .error e.message) := by
  constructor
  · intro r h
    simp [simpleApiProxy, h]
  · intro e h
    simp [simpleApiProxy, h]

/-- Witness for C9 on both projections: a successful GET and a transport
failure. -/
theorem simple_proxy_projection_witness :
    simpleApiProxy "GET".toList (.response 200 [] (.ok "hi".toList))
        "r1".toList 7 = .ok "hi".toList ∧
    simpleApiProxy "GET".toList (.sendFailed "dns".toList) "r1".toList 7 =
      .error ("HTTP request failed: ".toList ++ "dns".toList) :=
  ⟨(simple_proxy_projection "GET".toList _ "r1".toList 7).1
      ⟨200, [("X-Tauri-Proxied".toList, "true".toList),
        ("X-Tauri-Request-ID".toList, "r1".toList),
        ("X-Tauri-Elapsed-Ms".toList, (Nat.repr 7).toList)], "hi".toList⟩ rfl,
    (simple_proxy_projection "GET".toList _ "r1".toList 7).2
      ⟨"HTTP request failed: ".toList ++ "dns".toList, none⟩ rfl⟩

/-- Claim C10 (confirmed): `check_microphone_permission` and
`request_microphone_permission` are pure stubs — on the Android target and
on every other platform they return `Ok` with `granted = true`, never an
error and never a denied status. -/
theorem permission_stubs_always_granted :
    ∀ androidTarget : Bool,
      check_microphone_permission androidTarget = .ok ⟨true⟩ ∧
      request_microphone_permission androidTarget = .ok ⟨true⟩ := by
  intro a
  cases a <;> exact ⟨rfl, rfl⟩

-- Smoke tests for the text primitives.
example : rustLines "a\r\nb".toList = ["a".toList, "b".toList] := by decide
example : rustLines "a\n".toList = ["a".toList] := by decide
example : rustLines "a\r".toList = ["a\r".toList] := by decide
example : rustLines [] = [] := by decide
example : trim "  data: ok \t".toList = "data: ok".toList := by decide
example : rawTail "ab\ncd".toList = "cd".toList := by decide
example : donePart "ab\ncd".toList = "ab\n".toList := by decide

-- Concrete pipeline runs, each hand-checked against the Rust line loop.
example : pipelineRecords ["data: ok\n".toList] = ["data: ok\n".toList] := by
  decide
example : pipelineRecords ["data:\n[1]\n".toList] = ["data: [1]\n".toList] := by
  decide
example : pipelineRecords ["data:\n".toList, "[1]\n".toList] =
    ["data: [1]\n".toList] := by
  decide
example : pipelineRecords ["data".toList, ": ok\nrest".toList] =
    ["data: ok\n".toList, "rest\n".toList] := by
  decide

end ApiProxy
